import Mathlib

/-!
# Verification of the password strength analyzer

Shallow embedding of `src/password_analyzer.cpp`.  Characters are modelled
as natural numbers (the source assumes ASCII codes 0-127).  The character
classification predicates are the C `<cctype>` predicates in the "C" locale
restricted to the ASCII range, exactly as the source uses them.

The arithmetic core of the program works on a C `long double`:
`numCombinations = pow(alphabetSize, length)` and
`numBits = floor(log(numCombinations) / log(2))`.  Two models of this
arithmetic are developed:

* an exact model over `ℕ` (`computeNumCombinations`, `computeNumBits`),
  valid for the in-range inputs the functional claims are about; the lemma
  `computeNumBits_eq_floor_log` discharges the obligation that
  `Nat.log 2` is exactly the `floor(log x / log 2)` of the source for
  positive integer counts;
* a saturating model (`computeNumCombinationsLD`, `computeNumBitsLD`) that
  records the `long double` overflow of `powl` to `+inf` (an 80-bit extended
  value overflows once the mathematical result reaches `2 ^ 16384`; all
  concrete inputs used below exceed that bound, so the exact position of the
  rounding boundary just under `2 ^ 16384` is immaterial), and records the
  C-undefined conversion of an infinite / NaN `floor` result to `int` as
  `none`.  The source has no check whatsoever between `pow` and the final
  `int` assignment, which is what the error-handling claims are about.
-/

namespace PasswordAnalyzer

/-- C `isdigit` on the ASCII range: codes 48-57 (`'0'`-`'9'`). -/
def isdigit (c : ℕ) : Bool := 48 ≤ c && c ≤ 57

/-- C `islower` on the ASCII range: codes 97-122 (`'a'`-`'z'`). -/
def islower (c : ℕ) : Bool := 97 ≤ c && c ≤ 122

/-- C `isupper` on the ASCII range: codes 65-90 (`'A'`-`'Z'`). -/
def isupper (c : ℕ) : Bool := 65 ≤ c && c ≤ 90

/-- C `ispunct` on the ASCII range: printable, not alphanumeric, not the
space character: codes 33-47, 58-64, 91-96, 123-126. -/
def ispunct (c : ℕ) : Bool :=
  (33 ≤ c && c ≤ 47) || (58 ≤ c && c ≤ 64) || (91 ≤ c && c ≤ 96) || (123 ≤ c && c ≤ 126)

/-- The weight enum of `password_analyzer.cpp` (number of possibilities per
character class). -/
def NUMBERS : ℕ := 10

/-- Weight of the lowercase class. -/
def LOWERCASE : ℕ := 26

/-- Weight of the uppercase class. -/
def UPPERCASE : ℕ := 26

/-- Weight of the punctuation/symbol class. -/
def SYMBOLS : ℕ := 32

/-- Weight of the space class. -/
def SPACE : ℕ := 1

/-- Weight of the tab class. -/
def TAB : ℕ := 1

/-- Weight of the catch-all class. -/
def OTHER : ℕ := 1

/-- The seven character categories of the classification pass, in the order
of the `if`/`else if` chain of `computeNumCombinations` (indices 0-6 of the
`charTypes` array). -/
inductive CharCategory : Type where
  | numbers
  | lowercase
  | uppercase
  | symbols
  | space
  | tab
  | other
deriving DecidableEq

/-- The `bool charTypes[7]` array of `computeNumCombinations`, one flag per
category. -/
structure CharTypes where
  numbers : Bool
  lowercase : Bool
  uppercase : Bool
  symbols : Bool
  space : Bool
  tab : Bool
  other : Bool
deriving DecidableEq

/-- The flag of a given category. -/
def getFlag (ct : CharTypes) : CharCategory → Bool
  | .numbers => ct.numbers
  | .lowercase => ct.lowercase
  | .uppercase => ct.uppercase
  | .symbols => ct.symbols
  | .space => ct.space
  | .tab => ct.tab
  | .other => ct.other

/-- The category a single character is assigned to: the `if`/`else if`
chain of the loop body of `computeNumCombinations`, first match wins. -/
def classify (c : ℕ) : CharCategory :=
  if isdigit c then .numbers
  else if islower c then .lowercase
  else if isupper c then .uppercase
  else if ispunct c then .symbols
  else if c = 32 then .space
  else if c = 9 then .tab
  else .other

/-- One iteration of the scanning loop of `computeNumCombinations`:
sets the flag of the matching category. -/
def markChar (ct : CharTypes) (c : ℕ) : CharTypes :=
  if isdigit c then { ct with numbers := true }
  else if islower c then { ct with lowercase := true }
  else if isupper c then { ct with uppercase := true }
  else if ispunct c then { ct with symbols := true }
  else if c = 32 then { ct with space := true }
  else if c = 9 then { ct with tab := true }
  else { ct with other := true }

/-- The initial `bool charTypes[7] = {0}`. -/
def initTypes : CharTypes :=
  ⟨false, false, false, false, false, false, false⟩

/-- The scanning loop of `computeNumCombinations` over the whole password. -/
def scanPassword (pw : List ℕ) : CharTypes :=
  pw.foldl markChar initTypes

/-- The weighted sum of `computeNumCombinations` (a C `bool` converts to
`0`/`1` in the arithmetic). -/
def alphabetSize (ct : CharTypes) : ℕ :=
  (if ct.numbers then 1 else 0) * NUMBERS + (if ct.lowercase then 1 else 0) * LOWERCASE
    + (if ct.uppercase then 1 else 0) * UPPERCASE + (if ct.symbols then 1 else 0) * SYMBOLS
    + (if ct.space then 1 else 0) * SPACE + (if ct.tab then 1 else 0) * TAB
    + (if ct.other then 1 else 0) * OTHER

/-- `numCombinations = pow(alphabetSize, password.length())`, exact model:
for inputs whose mathematical value stays below `ldOverflowBound` the
`long double` computation is exactly this value (`powl(0.0L, 0.0L)` is `1`
by IEEE-754, matching `0 ^ 0 = 1` on `ℕ`).  This model is only used at such
bounded inputs; any statement quantifying over unbounded lengths must use
the saturating model `computeNumCombinationsLD`, which covers the overflow
path. -/
def computeNumCombinations (pw : List ℕ) : ℕ :=
  alphabetSize (scanPassword pw) ^ pw.length

/-- `numBits = floor(log(numCombinations) / log(2))`, exact model for
positive integer counts: `Nat.log 2`.  The lemma
`computeNumBits_eq_floor_log` proves this is exactly the source formula. -/
def computeNumBits (numCombinations : ℕ) : ℕ :=
  Nat.log 2 numCombinations

/-- Overflow threshold of the 80-bit `long double` used by `powl`: a
mathematical result at or above `2 ^ 16384` is certainly above the rounding
boundary just below it, so `powl` returns `+inf` for such results. -/
def ldOverflowBound : ℕ := 2 ^ 16384

/-- `numCombinations = pow(alphabetSize, password.length())` in the
saturating `long double` model: `none` is the `+inf` sentinel produced when
the mathematical value reaches the overflow threshold. -/
def computeNumCombinationsLD (pw : List ℕ) : Option ℕ :=
  if alphabetSize (scanPassword pw) ^ pw.length < ldOverflowBound then
    some (alphabetSize (scanPassword pw) ^ pw.length)
  else none

/-- `numBits = floor(log(numCombinations) / log(2))` in the saturating
model.  The source applies the formula unconditionally: there is no check
between `pow` and the final `int` assignment.  `log(+inf) = +inf` and
`log(0) = -inf`; `floor` keeps both infinite, and C defines no result for
converting an infinite value to `int`, recorded as `none`.  For a positive
finite count the result is `floor(log2 x) = Nat.log 2 x`
(lemma `natLog_eq_floor_logb`). -/
def computeNumBitsLD : Option ℕ → Option ℤ
  | none => none
  | some x => if x = 0 then none else some (Nat.log 2 x)

/-- The prompt string of `promptPassword`. -/
def prompt : String := "Please enter the password: "

/-- The error message of `promptPassword`. -/
def errMsg : String := "Invalid entry! Please try again!\n"

/-- The retry loop of `promptPassword` (lines 118-128).  The input stream is
modelled by the sequence `att` of `getline` outcomes: `att k = none` means
the k-th `getline` left `cin` in a failed state, `att k = some s` means it
read the line `s`.  The `cin.clear()` / `cin.ignore(80, char 10)` pair that
recovers the stream before the next attempt is what moves the loop from
outcome `k` to outcome `k + 1`.  The first component collects the strings
printed (`errMsg` then `prompt` per failed attempt); `fuel` bounds the
number of iterations that can be observed, since the C loop itself runs
unboundedly until an attempt succeeds. -/
def promptLoop (att : ℕ → Option String) : ℕ → ℕ → List String × Option String
  | _, 0 => ([], none)
  | k, fuel + 1 =>
    match att k with
    | some s => ([], some s)
    | none =>
      let r := promptLoop att (k + 1) fuel
      (errMsg :: prompt :: r.1, r.2)

/-- `promptPassword`: print the prompt, attempt a first `getline`, then run
the retry loop.  Returns the printed strings and the password read. -/
def promptPassword (att : ℕ → Option String) (fuel : ℕ) : List String × Option String :=
  let r := promptLoop att 0 fuel
  (prompt :: r.1, r.2)

/-- The transcript of `n` failed attempts: `errMsg` then `prompt`, `n`
times. -/
def retryOutputs : ℕ → List String
  | 0 => []
  | n + 1 => errMsg :: prompt :: retryOutputs n

/-- The `ECHO` bit of the `termios` local-mode flags (bit 3 on Linux). -/
def ECHO : ℕ := 8

/-- The part of `struct termios` the program touches. -/
structure Termios where
  c_lflag : ℕ
deriving DecidableEq

/-- The hardcoded `bool display_password = true` of `promptPassword`. -/
def display_password : Bool := true

/-- Lines 105-112 of `promptPassword`: read the terminal attributes, clear
the `ECHO` bit if the password is to be hidden (dead branch: the switch is
hardcoded to `true`), otherwise set it, and apply.  `&= ~ECHO` on the 32-bit
`tcflag_t` is masking with all bits except bit 3. -/
def echoPrepare (tty : Termios) : Termios :=
  if !display_password then ⟨tty.c_lflag &&& (2 ^ 32 - 1 - ECHO)⟩
  else ⟨tty.c_lflag ||| ECHO⟩

/-- Lines 130-132 of `promptPassword`: unconditionally set the `ECHO` bit
and apply, regardless of the terminal state found on entry. -/
def echoRestore (tty : Termios) : Termios :=
  ⟨tty.c_lflag ||| ECHO⟩

/-! ## Helper lemmas about the scanning loop -/

theorem getFlag_markChar (ct : CharTypes) (c : ℕ) (cat : CharCategory) :
    getFlag (markChar ct c) cat = (getFlag ct cat || decide (classify c = cat)) := by
  unfold markChar classify
  split_ifs <;> cases cat <;> simp [getFlag]

theorem getFlag_foldl (pw : List ℕ) (ct : CharTypes) (cat : CharCategory) :
    getFlag (pw.foldl markChar ct) cat
      = (getFlag ct cat || pw.any fun c => decide (classify c = cat)) := by
  induction pw generalizing ct with
  | nil => simp
  | cons c pw ih =>
    simp only [List.foldl_cons, List.any_cons, ih, getFlag_markChar]
    cases getFlag ct cat <;> simp

theorem getFlag_scanPassword (pw : List ℕ) (cat : CharCategory) :
    getFlag (scanPassword pw) cat = true ↔ ∃ c ∈ pw, classify c = cat := by
  unfold scanPassword
  rw [getFlag_foldl]
  cases cat <;> simp [initTypes, getFlag, List.any_eq_true]

theorem charTypes_eq_of_getFlag {ct₁ ct₂ : CharTypes}
    (h : ∀ cat, getFlag ct₁ cat = getFlag ct₂ cat) : ct₁ = ct₂ := by
  obtain ⟨a₁, b₁, c₁, d₁, e₁, f₁, g₁⟩ := ct₁
  obtain ⟨a₂, b₂, c₂, d₂, e₂, f₂, g₂⟩ := ct₂
  simp only [CharTypes.mk.injEq]
  exact ⟨h .numbers, h .lowercase, h .uppercase, h .symbols, h .space, h .tab, h .other⟩

theorem alphabetSize_pos_of_flag {ct : CharTypes} {cat : CharCategory}
    (h : getFlag ct cat = true) : 1 ≤ alphabetSize ct := by
  cases cat <;> simp only [getFlag] at h <;>
    simp only [alphabetSize, h, if_true, one_mul,
      NUMBERS, LOWERCASE, UPPERCASE, SYMBOLS, SPACE, TAB, OTHER] <;> omega

theorem classify_of_islower {c : ℕ} (h : islower c = true) : classify c = .lowercase := by
  have hc : 97 ≤ c ∧ c ≤ 122 := by simpa [islower] using h
  unfold classify
  rw [if_neg (by simp [isdigit]; omega), if_pos h]

theorem scanPassword_lowercase {pw : List ℕ} (hne : pw ≠ [])
    (hlow : ∀ c ∈ pw, islower c = true) :
    scanPassword pw = ⟨false, true, false, false, false, false, false⟩ := by
  obtain ⟨c₀, pw', rfl⟩ := List.exists_cons_of_ne_nil hne
  have hall : ∀ c ∈ c₀ :: pw', classify c = CharCategory.lowercase :=
    fun c hc => classify_of_islower (hlow c hc)
  have hflag : ∀ cat, (getFlag (scanPassword (c₀ :: pw')) cat = true
      ↔ cat = CharCategory.lowercase) := by
    intro cat
    rw [getFlag_scanPassword]
    constructor
    · rintro ⟨c, hc, rfl⟩
      exact hall c hc
    · rintro rfl
      exact ⟨c₀, by simp, hall c₀ (by simp)⟩
  apply charTypes_eq_of_getFlag
  intro cat
  cases hb : getFlag (scanPassword (c₀ :: pw')) cat
  · cases cat <;> first
      | rfl
      | exact absurd ((hflag _).mpr rfl) (by simp [hb])
  · cases cat <;> first
      | rfl
      | exact absurd ((hflag _).mp hb) (by decide)

/-! ## Bridging the integer model to the real logarithm of the source -/

theorem natLog_eq_floor_logb (n : ℕ) :
    ((Nat.log 2 n : ℕ) : ℤ) = ⌊Real.logb 2 (n : ℝ)⌋ := by
  rw [show (2 : ℝ) = ((2 : ℕ) : ℝ) by norm_num,
    Real.floor_logb_natCast (by positivity), Int.log_natCast]

theorem computeNumBits_eq_floor_log (n : ℕ) :
    ((computeNumBits n : ℕ) : ℤ) = ⌊Real.log (n : ℝ) / Real.log 2⌋ := by
  rw [Real.log_div_log, computeNumBits, natLog_eq_floor_logb]

/-! ## Helper lemmas about the prompt retry loop -/

theorem retryOutputs_mem {m : String} : ∀ {n : ℕ}, m ∈ retryOutputs n → m = prompt ∨ m = errMsg := by
  intro n
  induction n with
  | zero => intro h; simp [retryOutputs] at h
  | succ n ih =>
    intro h
    simp only [retryOutputs, List.mem_cons] at h
    rcases h with h | h | h
    · exact Or.inr h
    · exact Or.inl h
    · exact ih h

theorem promptLoop_success (att : ℕ → Option String) :
    ∀ (fuel k n : ℕ) (s : String), k ≤ n → n < k + fuel →
      (∀ j, k ≤ j → j < n → att j = none) → att n = some s →
      promptLoop att k fuel = (retryOutputs (n - k), some s) := by
  intro fuel
  induction fuel with
  | zero => intro k n s hkn hlt _ _; omega
  | succ fuel ih =>
    intro k n s hkn hlt hfail hok
    by_cases hk : k = n
    · subst hk
      simp [promptLoop, hok, retryOutputs]
    · have hkn' : k + 1 ≤ n := by omega
      have hattk : att k = none := hfail k le_rfl (by omega)
      have hrec := ih (k + 1) n s hkn' (by omega)
        (fun j hj hjn => hfail j (by omega) hjn) hok
      have hnk : n - k = (n - (k + 1)) + 1 := by omega
      simp only [promptLoop, hattk, hrec, hnk, retryOutputs]

/-- An input whose mathematical combination count exceeds the long double
range: 3500 lowercase letters, with 2 ^ 16384 ≤ 26 ^ 3500. -/
theorem replicate_lowercase_overflow :
    ldOverflowBound
      ≤ alphabetSize (scanPassword (List.replicate 3500 97))
          ^ (List.replicate 3500 97).length := by
  have hne : List.replicate 3500 97 ≠ ([] : List ℕ) := by
    intro h
    have h2 := congrArg List.length h
    rw [List.length_replicate] at h2
    simp at h2
  have hlow : ∀ c ∈ List.replicate 3500 97, islower c = true := by
    intro c hc
    rw [List.eq_of_mem_replicate hc]
    decide
  rw [scanPassword_lowercase hne hlow, List.length_replicate]
  show (2 : ℕ) ^ 16384 ≤ 26 ^ 3500
  have h1 : (2 : ℕ) ^ 235 ≤ 26 ^ 50 := by norm_num
  calc (2 : ℕ) ^ 16384 ≤ 2 ^ 16450 := Nat.pow_le_pow_right (by norm_num) (by norm_num)
    _ = (2 ^ 235) ^ 70 := by rw [← pow_mul]
    _ ≤ (26 ^ 50) ^ 70 := Nat.pow_le_pow_left h1 70
    _ = 26 ^ 3500 := by rw [← pow_mul]

/-! ## The claims -/

/-- C1: the classification pass assigns each character of the 0-127 range to
exactly one of the seven categories, first match wins in the order digit,
lowercase, uppercase, punctuation, space, tab, other (the order of the
`if`/`else if` chain embedded in `classify`); after the pass a category flag
is true iff at least one character of the input belongs to that category. -/
theorem classification_pass_correct (pw : List ℕ) (hrange : ∀ c ∈ pw, c < 128) :
    (∀ c ∈ pw, ∃! cat : CharCategory, classify c = cat) ∧
      (∀ cat : CharCategory,
        getFlag (scanPassword pw) cat = true ↔ ∃ c ∈ pw, classify c = cat) :=
  ⟨fun c _ => ⟨classify c, rfl, fun _ h => h.symm⟩,
    fun cat => getFlag_scanPassword pw cat⟩

theorem classification_pass_correct_witness :
    (∀ c ∈ [97, 65, 49, 33], c < 128) ∧
      ((∀ c ∈ [97, 65, 49, 33], ∃! cat : CharCategory, classify c = cat) ∧
        (∀ cat : CharCategory,
          getFlag (scanPassword [97, 65, 49, 33]) cat = true
            ↔ ∃ c ∈ [97, 65, 49, 33], classify c = cat)) :=
  ⟨by decide, classification_pass_correct [97, 65, 49, 33] (by decide)⟩

/-- C2: the alphabet size is the weighted sum over the seven flags with
weights digit=10, lowercase=26, uppercase=26, symbol=32, space=1, tab=1,
other=1, and it is zero exactly when the input is empty (every scanned
character contributes weight at least 1 through some category). -/
theorem alphabet_size_correct (pw : List ℕ) :
    (alphabetSize (scanPassword pw) =
        (if (scanPassword pw).numbers then 10 else 0)
          + (if (scanPassword pw).lowercase then 26 else 0)
          + (if (scanPassword pw).uppercase then 26 else 0)
          + (if (scanPassword pw).symbols then 32 else 0)
          + (if (scanPassword pw).space then 1 else 0)
          + (if (scanPassword pw).tab then 1 else 0)
          + (if (scanPassword pw).other then 1 else 0)) ∧
      (alphabetSize (scanPassword pw) = 0 ↔ pw.length = 0) := by
  constructor
  · obtain ⟨a, b, c, d, e, f, g⟩ := scanPassword pw
    cases a <;> cases b <;> cases c <;> cases d <;> cases e <;> cases f <;> cases g <;> rfl
  · constructor
    · intro h0
      by_contra hne
      obtain ⟨c₀, pw', rfl⟩ := List.exists_cons_of_ne_nil (by simpa using hne)
      have hflag : getFlag (scanPassword (c₀ :: pw')) (classify c₀) = true :=
        (getFlag_scanPassword _ _).mpr ⟨c₀, by simp, rfl⟩
      have := alphabetSize_pos_of_flag hflag
      omega
    · intro h0
      rw [List.length_eq_zero] at h0
      subst h0
      rfl

/-- C3: for the empty input the combination count is exactly 1 (the
zero-exponent convention, with alphabet size 0) and the bit strength is 0,
also under the source's real-logarithm formula. -/
theorem empty_input_result :
    computeNumCombinations [] = 1 ∧
      computeNumBits (computeNumCombinations []) = 0 ∧
      alphabetSize (scanPassword []) = 0 ∧
      ⌊Real.log ((computeNumCombinations [] : ℕ) : ℝ) / Real.log 2⌋ = 0 := by
  refine ⟨rfl, ?_, rfl, ?_⟩
  · rw [show computeNumCombinations [] = 1 from rfl, computeNumBits]
    exact Nat.log_eq_of_pow_le_of_lt_pow (by norm_num) (by norm_num)
  · rw [show computeNumCombinations [] = 1 from rfl]
    simp

/-- C6: for the input string of characters 97, 65, 49, 33 (the codes of the
four characters of the scenario password, lowercase-uppercase-digit-symbol),
exactly the digit, lowercase, uppercase and symbol flags are set, the
alphabet size is 94, the combination count is 94 ^ 4 = 78074896, and the bit
strength is 26, also under the source's real-logarithm formula. -/
theorem scenario_mixed_four_result :
    scanPassword [97, 65, 49, 33] = ⟨true, true, true, true, false, false, false⟩ ∧
      alphabetSize (scanPassword [97, 65, 49, 33]) = 94 ∧
      computeNumCombinations [97, 65, 49, 33] = 78074896 ∧
      computeNumBits (computeNumCombinations [97, 65, 49, 33]) = 26 ∧
      ⌊Real.log ((computeNumCombinations [97, 65, 49, 33] : ℕ) : ℝ) / Real.log 2⌋ = 26 := by
  have hc : computeNumCombinations [97, 65, 49, 33] = 78074896 := by decide
  have hb : computeNumBits (computeNumCombinations [97, 65, 49, 33]) = 26 := by
    rw [hc, computeNumBits]
    exact Nat.log_eq_of_pow_le_of_lt_pow (by norm_num) (by norm_num)
  refine ⟨by decide, by decide, hc, hb, ?_⟩
  have := computeNumBits_eq_floor_log (computeNumCombinations [97, 65, 49, 33])
  rw [hb] at this
  exact this.symm.trans (by norm_num)

/-- C7 (amended): for every non-empty input made of lowercase letters only
whose length L keeps the mathematical value 26 ^ L below the long double
overflow threshold, the combination count is exactly 26 ^ L and the bit
strength is floor(L * log2 26).  (Beyond that length the count saturates to
the +inf sentinel and the bit conversion has no defined result, see the
counterexample `lowercase_unbounded_cex`, so the equalities cannot hold
unboundedly.) -/
theorem lowercase_only_in_range_result (pw : List ℕ) (hne : pw ≠ [])
    (hlow : ∀ c ∈ pw, islower c = true)
    (hlen : 26 ^ pw.length < ldOverflowBound) :
    computeNumCombinationsLD pw = some (26 ^ pw.length) ∧
      computeNumBitsLD (computeNumCombinationsLD pw)
        = some ⌊(pw.length : ℝ) * Real.logb 2 26⌋ := by
  have hscan := scanPassword_lowercase hne hlow
  have ha : alphabetSize (scanPassword pw) = 26 := by
    rw [hscan]
    rfl
  have e1 : computeNumCombinationsLD pw = some (26 ^ pw.length) := by
    rw [computeNumCombinationsLD, ha, if_pos hlen]
  refine ⟨e1, ?_⟩
  have hlog : Real.logb 2 (((26 : ℕ) ^ pw.length : ℕ) : ℝ)
      = (pw.length : ℝ) * Real.logb 2 26 := by
    push_cast
    rw [Real.logb_pow]
  rw [e1]
  simp only [computeNumBitsLD]
  rw [if_neg (pow_ne_zero _ (by norm_num)), natLog_eq_floor_logb, hlog]

/-- The longest lowercase input of the witness stays far below the overflow
threshold: 26 ^ 1 < 2 ^ 16384. -/
theorem witness_length_in_range : (26 : ℕ) ^ ([97] : List ℕ).length < ldOverflowBound := by
  show (26 : ℕ) ^ 1 < 2 ^ 16384
  rw [pow_one]
  calc (26 : ℕ) < 2 ^ 5 := by norm_num
    _ ≤ 2 ^ 16384 := Nat.pow_le_pow_right (by norm_num) (by norm_num)

theorem lowercase_only_in_range_result_witness :
    (([97] : List ℕ) ≠ [] ∧ (∀ c ∈ ([97] : List ℕ), islower c = true) ∧
        26 ^ ([97] : List ℕ).length < ldOverflowBound) ∧
      (computeNumCombinationsLD [97] = some (26 ^ ([97] : List ℕ).length) ∧
        computeNumBitsLD (computeNumCombinationsLD [97])
          = some ⌊(([97] : List ℕ).length : ℝ) * Real.logb 2 26⌋) :=
  ⟨⟨by decide, by decide, witness_length_in_range⟩,
    lowercase_only_in_range_result [97] (by decide) (by decide) witness_length_in_range⟩

/-- C7 counterexample: the claim quantifies over every non-empty lowercase
input, but at 3500 lowercase letters the program's `powl` overflows: the
combination count is the +inf sentinel, not 26 ^ 3500 (within any
tolerance), and the bit strength is not floor(3500 * log2 26) — the bit
computation has no defined result at all. -/
theorem lowercase_unbounded_cex :
    computeNumCombinationsLD (List.replicate 3500 97) ≠ some (26 ^ 3500) ∧
      computeNumBitsLD (computeNumCombinationsLD (List.replicate 3500 97))
        ≠ some ⌊(3500 : ℝ) * Real.logb 2 26⌋ := by
  have hn : ¬ alphabetSize (scanPassword (List.replicate 3500 97))
      ^ (List.replicate 3500 97).length < ldOverflowBound :=
    not_lt.2 replicate_lowercase_overflow
  have e1 : computeNumCombinationsLD (List.replicate 3500 97) = none := by
    rw [computeNumCombinationsLD, if_neg hn]
  constructor
  · rw [e1]
    exact fun h => Option.noConfusion h
  · rw [e1]
    exact fun h => Option.noConfusion h

/-- C8: every character maps to exactly one category, and permuting the
input characters changes neither the flags nor the combination count nor the
bit strength. -/
theorem classification_perm_invariant (l₁ l₂ : List ℕ) (hp : l₁.Perm l₂) :
    (∀ c : ℕ, c < 128 → ∃! cat : CharCategory, classify c = cat) ∧
      scanPassword l₁ = scanPassword l₂ ∧
      computeNumCombinations l₁ = computeNumCombinations l₂ ∧
      computeNumBits (computeNumCombinations l₁)
        = computeNumBits (computeNumCombinations l₂) := by
  have hscan : scanPassword l₁ = scanPassword l₂ := by
    apply charTypes_eq_of_getFlag
    intro cat
    cases hb : getFlag (scanPassword l₂) cat
    · cases hb' : getFlag (scanPassword l₁) cat
      · rfl
      · exfalso
        obtain ⟨c, hc, hcc⟩ := (getFlag_scanPassword _ _).mp hb'
        have hcontra : getFlag (scanPassword l₂) cat = true :=
          (getFlag_scanPassword _ _).mpr ⟨c, hp.mem_iff.mp hc, hcc⟩
        rw [hb] at hcontra
        exact Bool.false_ne_true hcontra
    · obtain ⟨c, hc, hcc⟩ := (getFlag_scanPassword _ _).mp hb
      exact (getFlag_scanPassword _ _).mpr ⟨c, hp.mem_iff.mpr hc, hcc⟩
  have hcomb : computeNumCombinations l₁ = computeNumCombinations l₂ := by
    rw [computeNumCombinations, computeNumCombinations, hscan, hp.length_eq]
  exact ⟨fun c _ => ⟨classify c, rfl, fun _ h => h.symm⟩, hscan, hcomb, by rw [hcomb]⟩

theorem classification_perm_invariant_witness :
    ([97, 49] : List ℕ).Perm [49, 97] ∧
      ((∀ c : ℕ, c < 128 → ∃! cat : CharCategory, classify c = cat) ∧
        scanPassword [97, 49] = scanPassword [49, 97] ∧
        computeNumCombinations [97, 49] = computeNumCombinations [49, 97] ∧
        computeNumBits (computeNumCombinations [97, 49])
          = computeNumBits (computeNumCombinations [49, 97])) :=
  ⟨List.Perm.swap 49 97 [],
    classification_perm_invariant [97, 49] [49, 97] (List.Perm.swap 49 97 [])⟩

/-- C4 (amended): when the mathematical value `alphabetSize ^ length`
reaches the long double overflow threshold, the combination count saturates
to the positive-infinity sentinel (`none`); the program performs no
detection of this condition — `computeNumBits` applies
`floor(log(x) / log(2))` unconditionally, so the infinity flows into the
`int` conversion, which has no defined result (`none`), and no distinguished
effectively-unbounded report exists anywhere in the program. -/
theorem overflow_saturates_undetected (pw : List ℕ)
    (h : ldOverflowBound ≤ alphabetSize (scanPassword pw) ^ pw.length) :
    computeNumCombinationsLD pw = none ∧
      computeNumBitsLD (computeNumCombinationsLD pw) = none := by
  have hn : ¬ alphabetSize (scanPassword pw) ^ pw.length < ldOverflowBound := not_lt.2 h
  have e1 : computeNumCombinationsLD pw = none := by
    rw [computeNumCombinationsLD, if_neg hn]
  exact ⟨e1, by rw [e1]; rfl⟩

theorem overflow_saturates_undetected_witness :
    ldOverflowBound
        ≤ alphabetSize (scanPassword (List.replicate 3500 97))
            ^ (List.replicate 3500 97).length ∧
      (computeNumCombinationsLD (List.replicate 3500 97) = none ∧
        computeNumBitsLD (computeNumCombinationsLD (List.replicate 3500 97)) = none) :=
  ⟨replicate_lowercase_overflow,
    overflow_saturates_undetected (List.replicate 3500 97) replicate_lowercase_overflow⟩

/-- C4 counterexample: for the concrete input of 3500 lowercase letters the
mathematical value 26 ^ 3500 exceeds the representable range and the
combination count saturates to the infinity sentinel (`none`), but the bit
computation produces no defined integer and no distinguished
effectively-unbounded (DEGENERATE_RESULT) report: the infinity passes
straight into the unchecked `floor`/`int` conversion (`none`), contrary to
the claim that the program detects it and reports a distinguished result. -/
theorem overflow_not_detected_cex :
    computeNumCombinationsLD (List.replicate 3500 97) = none ∧
      computeNumBitsLD (computeNumCombinationsLD (List.replicate 3500 97)) = none := by
  have hn : ¬ alphabetSize (scanPassword (List.replicate 3500 97))
      ^ (List.replicate 3500 97).length < ldOverflowBound :=
    not_lt.2 replicate_lowercase_overflow
  have e1 : computeNumCombinationsLD (List.replicate 3500 97) = none := by
    rw [computeNumCombinationsLD, if_neg hn]
  exact ⟨e1, by rw [e1]; rfl⟩

/-- C5 (amended): the bit-strength step of the source applies
`floor(log(x) / log(2))` unconditionally — a non-positive combination count
would flow into the logarithm (`log(0) = -inf`) and into an `int` conversion
with no defined result, with no computation-invalid report — but that branch
is unreachable: for every input the combination count of the formula
`alphabetSize ^ length` is at least 1. -/
theorem combination_count_positive (pw : List ℕ) :
    1 ≤ computeNumCombinations pw ∧ computeNumCombinationsLD pw ≠ some 0 := by
  have h1 : 1 ≤ computeNumCombinations pw := by
    cases pw with
    | nil => exact le_refl 1
    | cons c pw' =>
      have hflag : getFlag (scanPassword (c :: pw')) (classify c) = true :=
        (getFlag_scanPassword _ _).mpr ⟨c, by simp, rfl⟩
      have ha := alphabetSize_pos_of_flag hflag
      exact Nat.one_le_pow _ _ (by omega)
  refine ⟨h1, ?_⟩
  rw [computeNumCombinations] at h1
  rw [computeNumCombinationsLD]
  split_ifs with h
  · intro hc
    rw [Option.some_inj] at hc
    omega
  · intro hc
    exact Option.noConfusion hc

/-- C5 counterexample: at the non-positive combination count 0 the embedded
bit step reports nothing: the source invokes the logarithm of the
non-positive number (`log(0) = -inf`) unconditionally, and the `int`
conversion of the floored result has no defined value (`none`) — there is no
computation-invalid report and no loud failure, contrary to the claim. -/
theorem nonpositive_count_unguarded_cex : computeNumBitsLD (some 0) = none := rfl

/-- C9: when a read attempt leaves the input source in a failed state, the
program clears the failure, discards buffered garbage, re-prompts and
retries, repeating (however long it takes: `fuel` is any bound large enough
to contain the first success) until a valid line is obtained; the transcript
is exactly the prompt followed by one error message and one fresh prompt per
failed attempt, so no raw error text reaches the user. -/
theorem prompt_retries_until_valid (att : ℕ → Option String) (n : ℕ) (s : String)
    (hfail : ∀ k < n, att k = none) (hok : att n = some s) :
    ∀ fuel, n < fuel →
      promptPassword att fuel = (prompt :: retryOutputs n, some s) ∧
      ∀ m ∈ (promptPassword att fuel).1, m = prompt ∨ m = errMsg := by
  intro fuel hfuel
  have hloop := promptLoop_success att fuel 0 n s (Nat.zero_le n) (by omega)
    (fun j _ hj => hfail j hj) hok
  rw [Nat.sub_zero] at hloop
  have hmain : promptPassword att fuel = (prompt :: retryOutputs n, some s) := by
    rw [promptPassword, hloop]
  refine ⟨hmain, ?_⟩
  rw [hmain]
  intro m hm
  rcases List.mem_cons.mp hm with hm | hm
  · exact Or.inl hm
  · exact retryOutputs_mem hm

theorem prompt_retries_until_valid_witness :
    (∀ k < 2, (fun k => if k = 2 then some "secret" else (none : Option String)) k = none) ∧
      (fun k => if k = 2 then some "secret" else (none : Option String)) 2 = some "secret" ∧
      (promptPassword (fun k => if k = 2 then some "secret" else (none : Option String)) 3
          = (prompt :: retryOutputs 2, some "secret") ∧
        ∀ m ∈ (promptPassword
            (fun k => if k = 2 then some "secret" else (none : Option String)) 3).1,
          m = prompt ∨ m = errMsg) :=
  ⟨by decide, rfl,
    prompt_retries_until_valid (fun k => if k = 2 then some "secret" else none) 2 "secret"
      (by decide) rfl 3 (by decide)⟩

/-- C10: the password read never suppresses terminal echo (the hardcoded
switch keeps the `ECHO` bit set while reading), and on return the `ECHO` bit
is unconditionally set again — so a terminal that had echo disabled before
the call is not restored to its prior state but overwritten to
echo-enabled. -/
theorem echo_never_suppressed (tty : Termios) :
    Nat.testBit (echoPrepare tty).c_lflag 3 = true ∧
      Nat.testBit (echoRestore (echoPrepare tty)).c_lflag 3 = true ∧
      (Nat.testBit tty.c_lflag 3 = false → echoRestore (echoPrepare tty) ≠ tty) := by
  have hbit : Nat.testBit 8 3 = true := by decide
  have h1 : Nat.testBit (echoPrepare tty).c_lflag 3 = true := by
    simp [echoPrepare, display_password, ECHO, Nat.testBit_lor, hbit]
  have h2 : Nat.testBit (echoRestore (echoPrepare tty)).c_lflag 3 = true := by
    simp [echoRestore, echoPrepare, display_password, ECHO, Nat.testBit_lor, hbit]
  refine ⟨h1, h2, ?_⟩
  intro hoff heq
  rw [heq, hoff] at h2
  exact Bool.false_ne_true h2

theorem echo_never_suppressed_witness :
    Nat.testBit (Termios.mk 0).c_lflag 3 = false ∧
      echoRestore (echoPrepare (Termios.mk 0)) ≠ Termios.mk 0 :=
  ⟨by decide, (echo_never_suppressed (Termios.mk 0)).2.2 (by decide)⟩

end PasswordAnalyzer
